import Mathlib

/-!
Verification development for the simple-archiver repository.

The definitions below are a shallow embedding of the JavaScript source:

* the SQLite-backed `PersistentQueue` (methods `addJob`, `getNextJob`,
  `updateJobStatus`) of `src/find-cancel-elements.js` (second script,
  lines 230-310) is modelled as pure state transformers over a list of
  job rows, with the SQL statement semantics written out explicitly;
* the worker loop `processQueue` / `runArchive` / `saveArchive`
  (same file, lines 1418-1894) is modelled as an ordered list of pipeline
  stages executed with the try/catch structure of the source;
* the element matcher `findMatchingClickableElements` (lines 326-403),
  the popup dismissal pass `clickPopups` (lines 671-711), and the archive
  identity helpers `normalizeUrl` / `slugifyTitle` / `md5Hash` /
  `makeArchiveId` (lines 730-772) are embedded as executable functions
  over `List Char` / `List Nat`.

Timestamps (SQLite `CURRENT_TIMESTAMP`) are modelled as natural numbers
supplied by the caller.
-/

/- ------------------------------------------------------------------ -/
/- Job queue model (PersistentQueue, src/find-cancel-elements.js)     -/
/- ------------------------------------------------------------------ -/

/-- One row of the `queue` table created by `PersistentQueue.init`.
Only the columns the modelled operations read or write are kept;
`id` is the INTEGER PRIMARY KEY, `url` carries a UNIQUE constraint. -/
structure Job where
  id : Nat
  url : String
  status : String
  added_at : Nat
  started_at : Option Nat
  completed_at : Option Nat
  error_message : Option String
  retry_count : Nat
deriving DecidableEq, Repr

/-- Row inserted by `INSERT OR IGNORE INTO queue (url,status) VALUES (?, 'pending')`:
status is the literal 'pending', timestamps besides `added_at` are NULL,
`retry_count` defaults to 0. -/
def mkPendingJob (id : Nat) (url : String) (now : Nat) : Job :=
  { id := id, url := url, status := "pending", added_at := now,
    started_at := none, completed_at := none, error_message := none,
    retry_count := 0 }

/-- Number of stored rows whose `url` column equals `url`. -/
def countUrl (db : List Job) (url : String) : Nat :=
  (db.filter fun j => j.url = url).length

/-- Embedding of `PersistentQueue.addJob`: the `INSERT OR IGNORE` hits the
`UNIQUE(url)` constraint, so when a row with this url already exists (any
status) the insert changes nothing (`res.changes === 0`) and the method
returns `false`; otherwise the pending row is inserted and it returns
`true`. -/
def addJob (db : List Job) (url : String) (nextId now : Nat) :
    Bool × List Job :=
  if db.any fun j => j.url = url then
    (false, db)
  else
    (true, db ++ [mkPendingJob nextId url now])

/-- Embedding of the first statement of `PersistentQueue.getNextJob`:
`SELECT * FROM queue WHERE status='pending' ORDER BY added_at ASC LIMIT 1`.
Rows are scanned in rowid order; a row replaces the current candidate only
when its `added_at` is strictly smaller, so ties keep the earlier rowid. -/
def selectOldestPending (db : List Job) : Option Job :=
  db.foldl
    (fun acc j =>
      if j.status = "pending" then
        match acc with
        | none => some j
        | some k => if j.added_at < k.added_at then some j else acc
      else acc)
    none

/-- Embedding of the second statement of `PersistentQueue.getNextJob`:
`UPDATE queue SET status='processing', started_at=CURRENT_TIMESTAMP WHERE id=?`. -/
def markProcessing (db : List Job) (id : Nat) (now : Nat) : List Job :=
  db.map fun j =>
    if j.id = id then
      { j with status := "processing", started_at := some now }
    else j

/-- Embedding of `PersistentQueue.getNextJob` run without interference:
the SELECT above followed by the UPDATE above.  The returned row is the
row object read by the SELECT (its `status` field still says 'pending',
as in the source, which returns `row` unmodified). -/
def getNextJob (db : List Job) (now : Nat) : Option Job × List Job :=
  match selectOldestPending db with
  | none => (none, db)
  | some row => (some row, markProcessing db row.id now)

/-- Interleaved execution of two concurrent `getNextJob` calls under the
schedule A.SELECT, B.SELECT, A.UPDATE, B.UPDATE.  Each SQL statement is
individually atomic, but `getNextJob` wraps the two statements in no
transaction, so this schedule is admitted by the code: both callers
issue their SELECT before either UPDATE runs. -/
def doubleClaimInterleaved (db : List Job) (t1 t2 : Nat) :
    Option Job × Option Job × List Job :=
  let r1 := selectOldestPending db
  let r2 := selectOldestPending db
  let db1 := match r1 with
    | some j => markProcessing db j.id t1
    | none => db
  let db2 := match r2 with
    | some j => markProcessing db1 j.id t2
    | none => db1
  (r1, r2, db2)

/-- Embedding of `PersistentQueue.updateJobStatus`: an unconditional UPDATE
with no read of the current status.  When the new status is the literal
'completed' the SQL also sets `completed_at=CURRENT_TIMESTAMP`; in every
case it overwrites `status` and `error_message` of the matching row. -/
def updateJobStatus (db : List Job) (id : Nat) (status : String)
    (error : Option String) (now : Nat) : List Job :=
  db.map fun j =>
    if j.id = id then
      if status = "completed" then
        { j with status := status, completed_at := some now,
                 error_message := error }
      else
        { j with status := status, error_message := error }
    else j

/-- Embedding of the status write in `processQueue`
(src/find-cancel-elements.js line 1866):
`queue.updateJobStatus(job.id, ok ? "complete" : "failed", ok ? null : "Archive failed")`.
Note the literal is "complete", not "completed". -/
def recordArchiveResult (db : List Job) (id : Nat) (ok : Bool) (now : Nat) :
    List Job :=
  updateJobStatus db id (if ok then "complete" else "failed")
    (if ok then none else some "Archive failed") now

/-- Status column of the row with the given id, if present. -/
def statusOf (db : List Job) (id : Nat) : Option String :=
  (db.find? fun j => j.id = id).map fun j => j.status

/-- Error-message column of the row with the given id, if present. -/
def errorOf (db : List Job) (id : Nat) : Option (Option String) :=
  (db.find? fun j => j.id = id).map fun j => j.error_message

/-- Completed-at column of the row with the given id, if present. -/
def completedAtOf (db : List Job) (id : Nat) : Option (Option Nat) :=
  (db.find? fun j => j.id = id).map fun j => j.completed_at

/- ------------------------------------------------------------------ -/
/- Archival pipeline model (runArchive / saveArchive / processQueue)  -/
/- ------------------------------------------------------------------ -/

/-- Classification of a pipeline stage of `runArchive`/`saveArchive`. -/
inductive StageKind where
  | navigation
  | mutation
  | capture
  | wait
  | misc
deriving DecidableEq, Repr

/-- One awaited step of `runArchive`/`saveArchive`.  `caught` records
whether the source absorbs the step's failure locally
(only the `waitForNetworkIdle` calls, whose rejections are given an
empty catch handler, do);
an uncaught failure propagates to the try/catch of `runArchive`. -/
structure Stage where
  name : String
  kind : StageKind
  caught : Bool
deriving DecidableEq, Repr

/-- Stages run by `runArchive` (src/find-cancel-elements.js 1787-1854)
before it calls `saveArchive`, in source order. -/
def runArchivePrologue : List Stage :=
  [ { name := "goto", kind := .navigation, caught := false },
    { name := "clickExpandableContent.run", kind := .mutation, caught := false },
    { name := "clickReadMore.run", kind := .mutation, caught := false },
    { name := "clickBottomFooterButton.run", kind := .mutation, caught := false },
    { name := "removeAllGoogleAds.run", kind := .mutation, caught := false } ]

/-- Stages run by `saveArchive` (src/find-cancel-elements.js 1418-1670),
in source order.  `captureSanitizedHtml` is the `page.content()` read whose
result (plus the injected navigation-blocker string) is later written to
`page.html` by `writeSanitizedHtml`. -/
def saveArchiveStages : List Stage :=
  [ { name := "captureRawHtml", kind := .capture, caught := false },
    { name := "dismissOneSignalSlidedown", kind := .mutation, caught := false },
    { name := "removeOneSignalBell", kind := .mutation, caught := false },
    { name := "clickPopups", kind := .mutation, caught := false },
    { name := "triggerLazyLoadScroll.one", kind := .mutation, caught := false },
    { name := "captureSanitizedHtml", kind := .capture, caught := false },
    { name := "clickBottomFooterButton.save", kind := .mutation, caught := false },
    { name := "removeAllGoogleAds.save", kind := .mutation, caught := false },
    { name := "writeSanitizedHtml", kind := .capture, caught := false },
    { name := "clickExpandableContent.save", kind := .mutation, caught := false },
    { name := "fixLayoutBeforeScreenshot", kind := .mutation, caught := false },
    { name := "settleBeforeScreenshot", kind := .wait, caught := false },
    { name := "waitForNetworkIdle.one", kind := .wait, caught := true },
    { name := "captureScreenshot", kind := .capture, caught := false },
    { name := "triggerLazyLoadScroll.two", kind := .mutation, caught := false },
    { name := "waitForNetworkIdle.two", kind := .wait, caught := true },
    { name := "antiClipPatch", kind := .mutation, caught := false },
    { name := "fixWhiteRendering", kind := .mutation, caught := false },
    { name := "setViewport", kind := .misc, caught := false },
    { name := "emulateMediaType", kind := .misc, caught := false },
    { name := "capturePdf", kind := .capture, caught := false },
    { name := "captureMeta", kind := .capture, caught := false } ]

/-- Complete stage sequence of one `runArchive(url)` call. -/
def runArchiveStages : List Stage := runArchivePrologue ++ saveArchiveStages

/-- Execution of a stage list under the try/catch structure of
`runArchive`: a throwing stage with a local catch is skipped and execution
continues; a throwing stage without one aborts the rest (the exception
lands in the catch of `runArchive`, which returns `false`).  Returns the
success flag and the names of the stages that completed, in order. -/
def runStagesGo (throws : String → Bool) :
    List Stage → List String → Bool × List String
  | [], acc => (true, acc.reverse)
  | st :: rest, acc =>
    if throws st.name then
      if st.caught then runStagesGo throws rest acc
      else (false, acc.reverse)
    else runStagesGo throws rest (st.name :: acc)

/-- Run the full `runArchive` stage list with the given fault set. -/
def runArchiveExec (throws : String → Bool) : Bool × List String :=
  runStagesGo throws runArchiveStages []

/-- Completed-stage trace of a fault-free `runArchive` call. -/
def fullTrace : List String := (runArchiveExec fun _ => false).2

/-- Position of a stage name in a trace (the trace length if absent). -/
def posOf (tr : List String) (n : String) : Nat :=
  tr.findIdx fun s => s = n

theorem fullTrace_eq : fullTrace = runArchiveStages.map Stage.name := by
  decide

/- ------------------------------------------------------------------ -/
/- Claim-level propositions for the capture-ordering spec sentences   -/
/- ------------------------------------------------------------------ -/

/-- Spec sentence: raw HTML is captured before any DOM mutation stage. -/
abbrev rawCapturedBeforeAllMutations : Prop :=
  ∀ s ∈ runArchiveStages, s.kind = StageKind.mutation →
    posOf fullTrace "captureRawHtml" < posOf fullTrace s.name

/-- Spec sentence: sanitized HTML, screenshot and PDF are each captured
after the sanitization pipeline (every mutation stage) has finished. -/
abbrev capturesAfterSanitizationPipeline : Prop :=
  ∀ s ∈ runArchiveStages, s.kind = StageKind.mutation →
    posOf fullTrace s.name < posOf fullTrace "captureSanitizedHtml" ∧
    posOf fullTrace s.name < posOf fullTrace "captureScreenshot" ∧
    posOf fullTrace s.name < posOf fullTrace "capturePdf"

/-- Spec sentence: the three post-sanitization captures happen in the
order sanitized HTML, then screenshot, then PDF. -/
abbrev capturesInOrder : Prop :=
  posOf fullTrace "captureSanitizedHtml" < posOf fullTrace "captureScreenshot" ∧
  posOf fullTrace "captureScreenshot" < posOf fullTrace "capturePdf"

/-- Fault set in which exactly the ad-removal stage of `saveArchive`
(`removeAllGoogleAds`, called at line 1480) throws. -/
def adRemovalThrows : String → Bool := fun n => n == "removeAllGoogleAds.save"

/-- Fault set in which exactly the first `waitForNetworkIdle` call throws;
this is one of the two stages whose failure the source absorbs locally. -/
def netIdleThrows : String → Bool := fun n => n == "waitForNetworkIdle.one"

/-- One processing row, as left by a claim, for exercising the worker's
terminal status write. -/
def dbOneProcessing : List Job :=
  [{ id := 1, url := "https://example.org/story", status := "processing",
     added_at := 0, started_at := some 1, completed_at := none,
     error_message := none, retry_count := 0 }]

/-- Claim C3 as stated: with the ad-removal stage throwing, the pipeline
still reaches screenshot and PDF capture and the job ends 'completed'. -/
abbrev ClaimC3resilience : Prop :=
  (runArchiveExec adRemovalThrows).1 = true ∧
  "captureScreenshot" ∈ (runArchiveExec adRemovalThrows).2 ∧
  "capturePdf" ∈ (runArchiveExec adRemovalThrows).2 ∧
  statusOf (recordArchiveResult dbOneProcessing 1
      (runArchiveExec adRemovalThrows).1 9) 1 = some "completed"

/- ------------------------------------------------------------------ -/
/- Claim C1                                                           -/
/- ------------------------------------------------------------------ -/

/-- Single pending row used to exhibit the double claim. -/
def jobOnePending : Job :=
  { id := 1, url := "https://example.com/a", status := "pending",
    added_at := 0, started_at := none, completed_at := none,
    error_message := none, retry_count := 0 }

/-- Queue state with exactly one pending job. -/
def dbC1 : List Job := [jobOnePending]

/-- C1: `getNextJob` is not an atomic select-and-mark.  Its SELECT and
UPDATE are two separate statements with no enclosing transaction, so the
schedule in which both callers run their SELECT before either UPDATE is
admitted, and under it both concurrent callers receive the same job id 1
while the row ends up 'processing' — contradicting the claim that two
concurrent callers never both receive the same job.  Run sequentially
(one call completing before the next starts) the second caller correctly
receives none. -/
theorem C1_double_claim :
    (doubleClaimInterleaved dbC1 1 2).1 = some jobOnePending ∧
    (doubleClaimInterleaved dbC1 1 2).2.1 = some jobOnePending ∧
    statusOf (doubleClaimInterleaved dbC1 1 2).2.2 1 = some "processing" ∧
    (getNextJob dbC1 1).1 = some jobOnePending ∧
    (getNextJob (getNextJob dbC1 1).2 2).1 = none := by
  decide

/- ------------------------------------------------------------------ -/
/- Claim C2                                                           -/
/- ------------------------------------------------------------------ -/

/-- C2 counterexample: the claimed ordering is false on the code.  In the
fault-free trace of `runArchive`, the expansion-click, read-more,
bottom-footer and ad-removal mutations run before the raw HTML capture,
and the sanitized-HTML serialization happens before the bottom-footer,
ad-removal and expansion stages of `saveArchive`. -/
theorem C2_counterexample :
    ¬ (rawCapturedBeforeAllMutations ∧ capturesAfterSanitizationPipeline ∧
       capturesInOrder) := by
  decide

/-- C2 (amended): the captures occur in the order raw HTML, sanitized
HTML, screenshot, PDF; the raw HTML capture precedes every mutation stage
of `saveArchive` but follows the expansion-click, read-more, bottom-footer
and ad-removal mutations that `runArchive` performs first; the sanitized
HTML is serialized after the dismissal and lazy-load stages but before the
bottom-footer, ad-removal and expansion stages; and further mutation
stages run between the screenshot and the PDF. -/
theorem C2_capture_order :
    capturesInOrder ∧
    posOf fullTrace "captureRawHtml" < posOf fullTrace "captureSanitizedHtml" ∧
    (∀ s ∈ saveArchiveStages, s.kind = StageKind.mutation →
      posOf fullTrace "captureRawHtml" < posOf fullTrace s.name) ∧
    (∀ s ∈ runArchivePrologue, s.kind = StageKind.mutation →
      posOf fullTrace s.name < posOf fullTrace "captureRawHtml") ∧
    posOf fullTrace "dismissOneSignalSlidedown" < posOf fullTrace "captureSanitizedHtml" ∧
    posOf fullTrace "removeOneSignalBell" < posOf fullTrace "captureSanitizedHtml" ∧
    posOf fullTrace "clickPopups" < posOf fullTrace "captureSanitizedHtml" ∧
    posOf fullTrace "triggerLazyLoadScroll.one" < posOf fullTrace "captureSanitizedHtml" ∧
    posOf fullTrace "captureSanitizedHtml" < posOf fullTrace "clickBottomFooterButton.save" ∧
    posOf fullTrace "captureSanitizedHtml" < posOf fullTrace "removeAllGoogleAds.save" ∧
    posOf fullTrace "captureSanitizedHtml" < posOf fullTrace "clickExpandableContent.save" ∧
    posOf fullTrace "captureScreenshot" < posOf fullTrace "triggerLazyLoadScroll.two" ∧
    posOf fullTrace "triggerLazyLoadScroll.two" < posOf fullTrace "capturePdf" := by
  decide

/- ------------------------------------------------------------------ -/
/- Claim C3                                                           -/
/- ------------------------------------------------------------------ -/

/-- C3 counterexample: with the ad-removal stage throwing, the pipeline
does not reach screenshot or PDF capture and the job does not end
'completed' — the claimed per-stage failure isolation is absent. -/
theorem C3_counterexample : ¬ ClaimC3resilience := by
  decide

/-- C3 (amended): an exception thrown by the ad-removal stage is not
caught at the stage boundary: it propagates to the job-level try/catch of
`runArchive`, the remaining stages (including screenshot and PDF capture)
are skipped, and the worker records the job as failed with message
"Archive failed".  By contrast the `waitForNetworkIdle` stages do absorb
their own failures: when one of them throws, the pipeline still reaches
screenshot and PDF capture and the run succeeds. -/
theorem C3_stage_failure :
    (runArchiveExec adRemovalThrows).1 = false ∧
    "captureScreenshot" ∉ (runArchiveExec adRemovalThrows).2 ∧
    "capturePdf" ∉ (runArchiveExec adRemovalThrows).2 ∧
    statusOf (recordArchiveResult dbOneProcessing 1
        (runArchiveExec adRemovalThrows).1 9) 1 = some "failed" ∧
    errorOf (recordArchiveResult dbOneProcessing 1
        (runArchiveExec adRemovalThrows).1 9) 1 = some (some "Archive failed") ∧
    (runArchiveExec netIdleThrows).1 = true ∧
    "captureScreenshot" ∈ (runArchiveExec netIdleThrows).2 ∧
    "capturePdf" ∈ (runArchiveExec netIdleThrows).2 := by
  decide

/- ------------------------------------------------------------------ -/
/- Claim C5                                                           -/
/- ------------------------------------------------------------------ -/

/-- Terminal row used to refute the AlreadyTerminal claim. -/
def jobDone : Job :=
  { id := 1, url := "https://example.com/a", status := "completed",
    added_at := 0, started_at := some 1, completed_at := some 2,
    error_message := none, retry_count := 0 }

/-- C5 counterexample: calling fail on an already-completed job is not a
no-op; the row is modified (its status becomes 'failed' and its error
message is overwritten), and no AlreadyTerminal outcome exists in the
code. -/
theorem C5_counterexample :
    updateJobStatus [jobDone] 1 "failed" (some "boom") 9 ≠ [jobDone] := by
  decide

/-- C5 (amended): `updateJobStatus` applies the transition unconditionally,
with no terminal-status guard and no AlreadyTerminal report.  On a job
that is already terminal, a fail call overwrites `status` and
`error_message` (leaving the timestamps alone), a complete call
additionally overwrites `completed_at`, and rows with a different id are
untouched. -/
theorem C5_terminal_overwrite (db : List Job) (id : Nat) (msg : String)
    (now : Nat) (j : Job) (hmem : j ∈ db) (hid : j.id = id)
    (_hterm : j.status = "completed" ∨ j.status = "failed") :
    { j with status := "failed", error_message := some msg } ∈
      updateJobStatus db id "failed" (some msg) now ∧
    { j with status := "completed", error_message := none,
             completed_at := some now } ∈
      updateJobStatus db id "completed" none now ∧
    ∀ k ∈ db, k.id ≠ id →
      k ∈ updateJobStatus db id "failed" (some msg) now := by
  refine ⟨?_, ?_, ?_⟩
  · have := List.mem_map_of_mem
      (f := fun j' =>
        if j'.id = id then
          if ("failed" : String) = "completed" then
            { j' with status := "failed", completed_at := some now,
                      error_message := some msg }
          else { j' with status := "failed", error_message := some msg }
        else j') hmem
    simpa [updateJobStatus, hid] using this
  · have := List.mem_map_of_mem
      (f := fun j' =>
        if j'.id = id then
          if ("completed" : String) = "completed" then
            { j' with status := "completed", completed_at := some now,
                      error_message := none }
          else { j' with status := "completed", error_message := none }
        else j') hmem
    simpa [updateJobStatus, hid] using this
  · intro k hk hne
    have := List.mem_map_of_mem
      (f := fun j' =>
        if j'.id = id then
          if ("failed" : String) = "completed" then
            { j' with status := "failed", completed_at := some now,
                      error_message := some msg }
          else { j' with status := "failed", error_message := some msg }
        else j') hk
    simpa [updateJobStatus, hne] using this

/-- C5 witness: the amended theorem applied to the concrete terminal job. -/
theorem C5_terminal_overwrite_witness :
    { jobDone with status := "failed", error_message := some "boom" } ∈
      updateJobStatus [jobDone] 1 "failed" (some "boom") 9 :=
  (C5_terminal_overwrite [jobDone] 1 "boom" 9 jobDone (by decide) rfl
    (Or.inl rfl)).1

/- ------------------------------------------------------------------ -/
/- Claim C6                                                           -/
/- ------------------------------------------------------------------ -/

/-- C6: on a successful archival run the worker writes the literal
"complete", which is not one of the four documented statuses, and —
because `updateJobStatus` only sets `completed_at` for the literal
"completed" — the completion timestamp is never recorded. -/
theorem C6_complete_literal :
    (runArchiveExec fun _ => false).1 = true ∧
    statusOf (recordArchiveResult dbOneProcessing 1 true 9) 1 =
      some "complete" ∧
    statusOf (recordArchiveResult dbOneProcessing 1 true 9) 1 ≠
      some "completed" ∧
    completedAtOf (recordArchiveResult dbOneProcessing 1 true 9) 1 =
      some none ∧
    ("complete" : String) ∉
      (["pending", "processing", "completed", "failed"] : List String) := by
  decide

/- ------------------------------------------------------------------ -/
/- Claim C9                                                           -/
/- ------------------------------------------------------------------ -/

/-- C9: a second submission of a URL that is already stored — whatever the
stored row's status — is rejected (returns false, the Duplicate signal)
and leaves the table unchanged; after a first successful submission the
second call therefore keeps the row count for that URL at exactly 1. -/
theorem C9_duplicate_rejected :
    (∀ (db : List Job) (url : String) (nextId now : Nat),
      (∃ j ∈ db, j.url = url) → addJob db url nextId now = (false, db)) ∧
    (∀ (db : List Job) (url : String) (n1 t1 n2 t2 : Nat),
      countUrl db url = 0 →
      (addJob db url n1 t1).1 = true ∧
      (addJob (addJob db url n1 t1).2 url n2 t2).1 = false ∧
      (addJob (addJob db url n1 t1).2 url n2 t2).2 = (addJob db url n1 t1).2 ∧
      countUrl (addJob (addJob db url n1 t1).2 url n2 t2).2 url = 1) := by
  constructor
  · intro db url nextId now h
    have hany : (db.any fun j => j.url = url) = true := by
      rw [List.any_eq_true]
      obtain ⟨j, hj, hurl⟩ := h
      exact ⟨j, hj, by simpa using hurl⟩
    simp [addJob, hany]
  · intro db url n1 t1 n2 t2 hcount
    have hfil : (db.filter fun j => j.url = url) = [] :=
      List.length_eq_zero.mp hcount
    have hnone : ∀ j ∈ db, ¬ (j.url = url) := by
      intro j hj hurl
      have hmem : j ∈ db.filter fun j => j.url = url := by
        rw [List.mem_filter]
        exact ⟨hj, by simpa using hurl⟩
      simp [hfil] at hmem
    have hany : (db.any fun j => j.url = url) = false := by
      rw [List.any_eq_false]
      intro j hj
      simpa using hnone j hj
    have h1 : addJob db url n1 t1 = (true, db ++ [mkPendingJob n1 url t1]) := by
      simp [addJob, hany]
    have hmem2 : ((db ++ [mkPendingJob n1 url t1]).any fun j => j.url = url) = true := by
      rw [List.any_eq_true]
      exact ⟨mkPendingJob n1 url t1, by simp, by simp [mkPendingJob]⟩
    have h2 : addJob (db ++ [mkPendingJob n1 url t1]) url n2 t2 =
        (false, db ++ [mkPendingJob n1 url t1]) := by
      simp only [addJob, hmem2, if_pos]
    refine ⟨?_, ?_, ?_, ?_⟩
    · simp [h1]
    · simp [h1, h2]
    · simp [h1, h2]
    · simp only [h1, h2, countUrl, List.filter_append, hfil]
      simp [mkPendingJob]

/-- C9 witness: the duplicate-rejection theorem applied to a concrete
one-row queue. -/
theorem C9_duplicate_rejected_witness :
    addJob [jobDone] "https://example.com/a" 2 9 = (false, [jobDone]) :=
  C9_duplicate_rejected.1 [jobDone] "https://example.com/a" 2 9
    ⟨jobDone, by decide, rfl⟩

/- ------------------------------------------------------------------ -/
/- Character and string utilities shared by matcher and archive id    -/
/- ------------------------------------------------------------------ -/

/-- Whitespace, modelling the regex class backslash-s for the characters
that occur in this development. -/
def isSpaceChar (c : Char) : Bool :=
  c == ' ' || c == '\t' || c == '\n' || c == '\r'

/-- Word character, modelling the regex class backslash-w
([A-Za-z0-9_]). -/
def isWordChar (c : Char) : Bool :=
  c.isAlphanum || c == '_'

/-- Lowercasing of a character sequence (String.prototype.toLowerCase). -/
def lowerStr (cs : List Char) : List Char :=
  cs.map Char.toLower

/-- Trimming of leading and trailing whitespace
(String.prototype.trim). -/
def trimChars (cs : List Char) : List Char :=
  ((cs.dropWhile isSpaceChar).reverse.dropWhile isSpaceChar).reverse

/- ------------------------------------------------------------------ -/
/- Matched elements and the clickPopups dismissal pass (claim C8)     -/
/- ------------------------------------------------------------------ -/

/-- A matched element as produced by `findMatchingClickableElements`:
tag name, trimmed text, and the bounding-box centre in page coordinates
(scroll offset included).  Coordinates are abstracted to integers; the
dismissal pass never computes with them. -/
structure MatchedElement where
  tag : List Char
  text : List Char
  x : Int
  y : Int
deriving DecidableEq, Repr

/-- Deduplication key used by `clickPopups`:
`(el.text || "").trim().toLowerCase()`. -/
def dedupKey (e : MatchedElement) : List Char :=
  lowerStr (trimChars e.text)

/-- Embedding of the deduplication loop of `clickPopups`
(src/find-cancel-elements.js 682-689): a Set of seen keys; an element is
kept when its key is nonempty and not seen yet. -/
def dedupeByTextGo : List MatchedElement → List (List Char) → List MatchedElement
  | [], _ => []
  | e :: rest, seen =>
    let key := dedupKey e
    if key ∉ seen ∧ key ≠ [] then
      e :: dedupeByTextGo rest (key :: seen)
    else
      dedupeByTextGo rest seen

/-- The unique-by-text list `unique` computed by `clickPopups`. -/
def dedupeByText (ms : List MatchedElement) : List MatchedElement :=
  dedupeByTextGo ms []

/-- Embedding of the click decision of `clickPopups`: with no matches the
pass returns without clicking; otherwise only `unique[0]` is clicked
(`clickElements(page, [first])`), guarded against an absent first
element. -/
def clickPopupsClicked (ms : List MatchedElement) : List MatchedElement :=
  if ms = [] then []
  else
    match dedupeByText ms with
    | [] => []
    | first :: _ => [first]

/-- Spec-side statement of the deduplication rule: keep an element iff its
key is nonempty and it is the first occurrence of that key in discovery
order (later elements with the same key are dropped). -/
def firstOccurrences : List MatchedElement → List MatchedElement
  | [] => []
  | e :: rest =>
    if dedupKey e = [] then firstOccurrences rest
    else e :: firstOccurrences (rest.filter fun e2 => dedupKey e2 ≠ dedupKey e)
termination_by l => l.length
decreasing_by
  · simp only [List.length_cons]
    exact Nat.lt_succ_of_le (Nat.le_refl _)
  · simp only [List.length_cons]
    exact Nat.lt_succ_of_le (List.length_filter_le _ _)

theorem firstOccurrences_nil : firstOccurrences [] = [] := by
  rw [firstOccurrences.eq_def]

theorem firstOccurrences_cons (e : MatchedElement) (rest : List MatchedElement) :
    firstOccurrences (e :: rest) =
      if dedupKey e = [] then firstOccurrences rest
      else e :: firstOccurrences (rest.filter fun e2 => dedupKey e2 ≠ dedupKey e) := by
  rw [firstOccurrences.eq_def]

theorem dedupeByTextGo_eq_firstOccurrences :
    ∀ (ms : List MatchedElement) (seen : List (List Char)),
      dedupeByTextGo ms seen =
        firstOccurrences (ms.filter fun e => dedupKey e ∉ seen) := by
  intro ms
  induction ms with
  | nil => intro seen; simp [dedupeByTextGo, firstOccurrences_nil]
  | cons e rest ih =>
    intro seen
    rw [dedupeByTextGo, List.filter_cons]
    by_cases hseen : dedupKey e ∈ seen
    · rw [if_neg (show ¬ (dedupKey e ∉ seen ∧ dedupKey e ≠ []) by simp [hseen]),
        if_neg (show ¬ ((decide (dedupKey e ∉ seen) : Bool) = true) by simp [hseen])]
      exact ih seen
    · rw [if_pos (show (decide (dedupKey e ∉ seen) : Bool) = true by simp [hseen]),
        firstOccurrences_cons]
      by_cases hnil : dedupKey e = []
      · rw [if_neg (show ¬ (dedupKey e ∉ seen ∧ dedupKey e ≠ []) by simp [hnil]),
          if_pos hnil]
        exact ih seen
      · rw [if_pos (show dedupKey e ∉ seen ∧ dedupKey e ≠ [] from ⟨hseen, hnil⟩),
          if_neg hnil]
        congr 1
        rw [ih (dedupKey e :: seen), List.filter_filter]
        congr 1
        apply List.filter_congr
        intro a _
        by_cases h1 : dedupKey a = dedupKey e <;>
          by_cases h2 : dedupKey a ∈ seen <;> simp [h1, h2]

theorem firstOccurrences_sublist (ms : List MatchedElement) :
    List.Sublist (firstOccurrences ms) ms := by
  have H : ∀ (n : Nat) (l : List MatchedElement), l.length ≤ n →
      List.Sublist (firstOccurrences l) l := by
    intro n
    induction n with
    | zero =>
      intro l hl
      have hplain : l = [] :=
        List.eq_nil_of_length_eq_zero (Nat.le_zero.mp hl)
      subst hplain
      simp [firstOccurrences_nil]
    | succ n ih =>
      intro l hl
      match l with
      | [] => simp [firstOccurrences_nil]
      | e :: rest =>
        rw [firstOccurrences_cons]
        have hrest : rest.length ≤ n := by
          have : rest.length + 1 ≤ n + 1 := by simpa using hl
          omega
        by_cases hnil : dedupKey e = []
        · rw [if_pos hnil]
          exact (ih rest hrest).trans (List.sublist_cons_self e rest)
        · rw [if_neg hnil]
          refine List.Sublist.cons₂ e ?_
          refine (ih (rest.filter fun e2 => dedupKey e2 ≠ dedupKey e)
            (Nat.le_trans (List.length_filter_le _ _) hrest)).trans ?_
          exact List.filter_sublist rest
  exact H ms.length ms (Nat.le_refl _)

/-- C8: in one dismissal pass, `clickPopups` first deduplicates the
matched elements by normalized (trimmed, lowercased) text, keeping
exactly the first occurrence of each text in discovery order — elements
with identical text but different coordinates collapse to the first,
since the key ignores coordinates — and then clicks only the first
element of the deduplicated list before any re-scan, so at most one
element is clicked per pass.  The deduplicated list is a sublist of the
matches, preserving discovery order. -/
theorem C8_single_click_first_occurrence (ms : List MatchedElement) :
    dedupeByText ms = firstOccurrences ms ∧
    clickPopupsClicked ms = (firstOccurrences ms).take 1 ∧
    (clickPopupsClicked ms).length ≤ 1 ∧
    List.Sublist (firstOccurrences ms) ms := by
  have hded : dedupeByText ms = firstOccurrences ms := by
    rw [dedupeByText, dedupeByTextGo_eq_firstOccurrences]
    congr 1
    apply List.filter_eq_self.mpr
    intro a _
    simp
  refine ⟨hded, ?_, ?_, firstOccurrences_sublist ms⟩
  · simp only [clickPopupsClicked]
    by_cases hms : ms = []
    · rw [if_pos hms, hms, firstOccurrences_nil]
      simp
    · rw [if_neg hms, hded]
      cases firstOccurrences ms with
      | nil => simp
      | cons f t => simp
  · simp only [clickPopupsClicked]
    by_cases hms : ms = []
    · rw [if_pos hms]; simp
    · rw [if_neg hms]
      cases dedupeByText ms <;> simp

/- ------------------------------------------------------------------ -/
/- MD5 (crypto.createHash("md5"), used by md5Hash)                    -/
/- ------------------------------------------------------------------ -/

/-- UTF-8 encoding of one character, as `crypto.update` encodes the
input string before hashing. -/
def utf8EncodeChar (c : Char) : List Nat :=
  let n := c.toNat
  if n < 128 then [n]
  else if n < 2048 then [192 + n / 64, 128 + n % 64]
  else if n < 65536 then [224 + n / 4096, 128 + n / 64 % 64, 128 + n % 64]
  else [240 + n / 262144, 128 + n / 4096 % 64, 128 + n / 64 % 64,
        128 + n % 64]

/-- UTF-8 byte sequence of a character sequence. -/
def strBytes (cs : List Char) : List Nat :=
  cs.flatMap utf8EncodeChar

/-- Per-round sine-derived constants of MD5. -/
def md5K : List Nat :=
  [ 3614090360, 3905402710, 606105819, 3250441966,
    4118548399, 1200080426, 2821735955, 4249261313,
    1770035416, 2336552879, 4294925233, 2304563134,
    1804603682, 4254626195, 2792965006, 1236535329,
    4129170786, 3225465664, 643717713, 3921069994,
    3593408605, 38016083, 3634488961, 3889429448,
    568446438, 3275163606, 4107603335, 1163531501,
    2850285829, 4243563512, 1735328473, 2368359562,
    4294588738, 2272392833, 1839030562, 4259657740,
    2763975236, 1272893353, 4139469664, 3200236656,
    681279174, 3936430074, 3572445317, 76029189,
    3654602809, 3873151461, 530742520, 3299628645,
    4096336452, 1126891415, 2878612391, 4237533241,
    1700485571, 2399980690, 4293915773, 2240044497,
    1873313359, 4264355552, 2734768916, 1309151649,
    4149444226, 3174756917, 718787259, 3951481745 ]

/-- Per-round left-rotation amounts of MD5. -/
def md5S : List Nat :=
  [ 7, 12, 17, 22, 7, 12, 17, 22,
    7, 12, 17, 22, 7, 12, 17, 22,
    5, 9, 14, 20, 5, 9, 14, 20,
    5, 9, 14, 20, 5, 9, 14, 20,
    4, 11, 16, 23, 4, 11, 16, 23,
    4, 11, 16, 23, 4, 11, 16, 23,
    6, 10, 15, 21, 6, 10, 15, 21,
    6, 10, 15, 21, 6, 10, 15, 21 ]

/-- Left rotation of a 32-bit word. -/
def rotl32 (x s : Nat) : Nat :=
  (((x % 4294967296) <<< s) % 4294967296) |||
    ((x % 4294967296) >>> (32 - s))

/-- Bitwise complement within 32 bits. -/
def not32 (x : Nat) : Nat := x ^^^ 4294967295

/-- One MD5 round applied to the state (a, b, c, d), with `M` the
16-word message schedule of the current chunk and `i` the round index. -/
def md5Round (M : Nat → Nat) (st : Nat × Nat × Nat × Nat) (i : Nat) :
    Nat × Nat × Nat × Nat :=
  let a := st.1
  let b := st.2.1
  let c := st.2.2.1
  let d := st.2.2.2
  let f :=
    if i < 16 then (b &&& c) ||| (not32 b &&& d)
    else if i < 32 then (d &&& b) ||| (not32 d &&& c)
    else if i < 48 then b ^^^ c ^^^ d
    else c ^^^ (b ||| not32 d)
  let g :=
    if i < 16 then i
    else if i < 32 then (5 * i + 1) % 16
    else if i < 48 then (3 * i + 5) % 16
    else (7 * i) % 16
  let tmp := (a + f + md5K.getD i 0 + M g) % 4294967296
  (d, (b + rotl32 tmp (md5S.getD i 0)) % 4294967296, b, c)

/-- Little-endian 32-bit word at index `g` of a 64-byte chunk. -/
def chunkWord (chunk : List Nat) (g : Nat) : Nat :=
  chunk.getD (4 * g) 0 + 256 * chunk.getD (4 * g + 1) 0 +
    65536 * chunk.getD (4 * g + 2) 0 + 16777216 * chunk.getD (4 * g + 3) 0

/-- Processing of one 64-byte chunk: 64 rounds, then addition into the
running state, all mod 2^32. -/
def md5ProcessChunk (st : Nat × Nat × Nat × Nat) (chunk : List Nat) :
    Nat × Nat × Nat × Nat :=
  let r := (List.range 64).foldl (md5Round (chunkWord chunk)) st
  ((st.1 + r.1) % 4294967296, (st.2.1 + r.2.1) % 4294967296,
   (st.2.2.1 + r.2.2.1) % 4294967296, (st.2.2.2 + r.2.2.2) % 4294967296)

/-- Little-endian byte decomposition of a 64-bit length counter. -/
def bytesLE8 (n : Nat) : List Nat :=
  [ n % 256, n / 256 % 256, n / 65536 % 256, n / 16777216 % 256,
    n / 4294967296 % 256, n / 1099511627776 % 256,
    n / 281474976710656 % 256, n / 72057594037927936 % 256 ]

/-- MD5 padding: a 0x80 byte, zeros to 56 mod 64, then the bit length
as a little-endian 64-bit integer. -/
def padMessage (msg : List Nat) : List Nat :=
  let len := msg.length
  let padLen := (119 - len % 64) % 64
  msg ++ [128] ++ List.replicate padLen 0 ++ bytesLE8 ((len * 8) % 18446744073709551616)

/-- Split a byte list into 64-byte chunks; the fuel is an upper bound on
the recursion depth (the list length suffices, since every step drops at
least one element from a nonempty list). -/
def toChunks64Go : Nat → List Nat → List (List Nat)
  | 0, _ => []
  | _, [] => []
  | fuel + 1, c :: rest =>
    (c :: rest).take 64 :: toChunks64Go fuel ((c :: rest).drop 64)

/-- Split a byte list into 64-byte chunks. -/
def toChunks64 (l : List Nat) : List (List Nat) :=
  toChunks64Go l.length l

/-- Little-endian byte serialization of one 32-bit state word. -/
def wordBytesLE (w : Nat) : List Nat :=
  [ w % 256, w / 256 % 256, w / 65536 % 256, w / 16777216 % 256 ]

/-- MD5 digest of a byte sequence: 16 bytes. -/
def md5Digest (msg : List Nat) : List Nat :=
  let st := (toChunks64 (padMessage msg)).foldl md5ProcessChunk
    (1732584193, 4023233417, 2562383102, 271733878)
  wordBytesLE st.1 ++ wordBytesLE st.2.1 ++ wordBytesLE st.2.2.1 ++
    wordBytesLE st.2.2.2

/-- Lowercase hexadecimal digit for a nibble. -/
def hexCharLower (n : Nat) : Char :=
  if n < 10 then Char.ofNat (48 + n) else Char.ofNat (87 + n)

/-- Lowercase hexadecimal rendering of a byte list (two digits per
byte, most significant nibble first), as `digest("hex")` produces. -/
def toHex (bytes : List Nat) : List Char :=
  bytes.flatMap fun b => [hexCharLower (b / 16 % 16), hexCharLower (b % 16)]

/-- Embedding of `md5Hash(input, length)`:
`crypto.createHash("md5").update(input).digest("hex").slice(0, length)`. -/
def md5Hash (input : List Char) (length : Nat) : List Char :=
  (toHex (md5Digest (strBytes input))).take length

/- ------------------------------------------------------------------ -/
/- Slug and archive identity (slugifyTitle, normalizeUrl, makeArchiveId) -/
/- ------------------------------------------------------------------ -/

/-- Character class [a-z0-9-] kept by `slugifyTitle` after lowercasing. -/
def isSlugChar (c : Char) : Bool :=
  decide (97 ≤ c.toNat ∧ c.toNat ≤ 122) || c.isDigit || c == '-'

/-- Global replacement of every maximal run of characters outside
[a-z0-9-] by a single dash, the effect of
`.replace(/[^a-z0-9\-]+/g, "-")`.  The fuel bounds the recursion depth;
the list length suffices since each step consumes at least one
character. -/
def collapseNonSlugGo : Nat → List Char → List Char
  | 0, _ => []
  | _, [] => []
  | fuel + 1, c :: rest =>
    if isSlugChar c then c :: collapseNonSlugGo fuel rest
    else '-' :: collapseNonSlugGo fuel (rest.dropWhile fun d => !isSlugChar d)

/-- Replacement of non-slug runs by single dashes. -/
def collapseNonSlug (cs : List Char) : List Char :=
  collapseNonSlugGo cs.length cs

/-- Removal of leading and trailing dash runs, the effect of
`.replace(/^-+|-+$/g, "")`. -/
def stripDashes (cs : List Char) : List Char :=
  ((cs.dropWhile fun c => c == '-').reverse.dropWhile fun c => c == '-').reverse

/-- Embedding of `slugifyTitle`: a falsy (empty) title becomes
"untitled"; otherwise lowercase, collapse non-[a-z0-9-] runs to dashes,
strip edge dashes. -/
def slugifyTitle (title : List Char) : List Char :=
  if title = [] then "untitled".toList
  else stripDashes (collapseNonSlug (lowerStr title))

/- ------------------------------------------------------------------ -/
/- URL model (the WHATWG URL constructor used by normalizeUrl)        -/
/- ------------------------------------------------------------------ -/

/-- Components of a parsed URL.  The model keeps the constructor's
observable pieces used by `normalizeUrl`: scheme, host, path (empty or
starting with a slash), optional query (the part after a question mark)
and optional fragment (the part after a hash mark). -/
structure UrlParts where
  scheme : List Char
  host : List Char
  path : List Char
  query : Option (List Char)
  frag : Option (List Char)
deriving DecidableEq, Repr

/-- Scheme characters in the model: ASCII letters. -/
def isSchemeChar (c : Char) : Bool := c.isAlpha

/-- Host characters: anything up to the first slash, question mark or
hash mark. -/
def isHostChar (c : Char) : Bool := !(c == '/' || c == '?' || c == '#')

/-- Path characters: anything up to the first question mark or hash
mark. -/
def isPathChar (c : Char) : Bool := !(c == '?' || c == '#')

/-- Model of `new URL(s)` restricted to the behaviour `normalizeUrl`
relies on: an alphabetic scheme followed by `://`, a nonempty host, then
path, optional `?query` and optional `#fragment`.  Inputs containing
whitespace are rejected (the real parser percent-encodes some of them;
the model does not encode), as are inputs without the scheme-host shape
— for which the real constructor throws. -/
def parseUrl (cs : List Char) : Option UrlParts :=
  if cs.any isSpaceChar then none
  else
    let scheme := cs.takeWhile isSchemeChar
    if scheme = [] then none
    else
      match cs.dropWhile isSchemeChar with
      | ':' :: '/' :: '/' :: rest1 =>
        let host := rest1.takeWhile isHostChar
        if host = [] then none
        else
          let rest2 := rest1.dropWhile isHostChar
          let path := rest2.takeWhile isPathChar
          match rest2.dropWhile isPathChar with
          | [] => some ⟨scheme, host, path, none, none⟩
          | '?' :: r =>
            let q := r.takeWhile fun c => !(c == '#')
            match r.dropWhile fun c => !(c == '#') with
            | [] => some ⟨scheme, host, path, some q, none⟩
            | '#' :: f => some ⟨scheme, host, path, some q, some f⟩
            | _ => none
          | '#' :: f => some ⟨scheme, host, path, none, some f⟩
          | _ => none
      | _ => none

/-- Model of `URL.prototype.toString`: scheme, `://`, host, path (an
empty path serializes as a single slash), then `?query` and `#fragment`
when present. -/
def serializeUrl (u : UrlParts) : List Char :=
  u.scheme ++ (':' :: '/' :: '/' :: []) ++ u.host ++
    (if u.path = [] then ['/'] else u.path) ++
    (match u.query with | none => [] | some q => '?' :: q) ++
    (match u.frag with | none => [] | some f => '#' :: f)

/-- Embedding of `normalizeUrl`: trim, parse; on success clear the
fragment (`u.hash = ""`) and the query (`u.search = ""`) and serialize;
on a parse failure return the trimmed input unchanged. -/
def normalizeUrl (cs : List Char) : List Char :=
  match parseUrl (trimChars cs) with
  | some u => serializeUrl { u with query := none, frag := none }
  | none => trimChars cs

/-- Embedding of `makeArchiveId`: slug of the title, an underscore, and
the first 8 hex characters of the MD5 of the normalized URL. -/
def makeArchiveId (url title : List Char) : List Char :=
  slugifyTitle title ++ '_' :: md5Hash (normalizeUrl url) 8

/- ------------------------------------------------------------------ -/
/- List scanning helper lemmas                                        -/
/- ------------------------------------------------------------------ -/

theorem head_dropWhile_false {α : Type} (p : α → Bool) :
    ∀ (l : List α) (c : α), (l.dropWhile p).head? = some c → p c = false := by
  intro l
  induction l with
  | nil => intro c h; simp at h
  | cons a t ih =>
    intro c h
    by_cases hp : p a
    · rw [List.dropWhile_cons_of_pos hp] at h
      exact ih c h
    · rw [List.dropWhile_cons_of_neg hp] at h
      simp at h
      rw [← h]
      exact Bool.eq_false_iff.mpr hp

theorem dropWhile_eq_self_of_head {α : Type} (p : α → Bool) (l : List α)
    (h : ∀ c, l.head? = some c → p c = false) : l.dropWhile p = l := by
  cases l with
  | nil => rfl
  | cons a t =>
    rw [List.dropWhile_cons_of_neg]
    simp [h a rfl]

theorem dropWhile_eq_self_of_all {α : Type} (p : α → Bool) (l : List α)
    (h : ∀ c ∈ l, p c = false) : l.dropWhile p = l := by
  cases l with
  | nil => rfl
  | cons a t =>
    rw [List.dropWhile_cons_of_neg]
    simp [h a (by simp)]

theorem takeWhile_eq_self_of_all {α : Type} (p : α → Bool) :
    ∀ l : List α, (∀ c ∈ l, p c = true) → l.takeWhile p = l := by
  intro l
  induction l with
  | nil => intro _; rfl
  | cons a t ih =>
    intro h
    rw [List.takeWhile_cons_of_pos (h a (by simp))]
    rw [ih fun c hc => h c (by simp [hc])]

theorem dropWhile_eq_nil_of_all {α : Type} (p : α → Bool) :
    ∀ l : List α, (∀ c ∈ l, p c = true) → l.dropWhile p = [] := by
  intro l
  induction l with
  | nil => intro _; rfl
  | cons a t ih =>
    intro h
    rw [List.dropWhile_cons_of_pos (h a (by simp))]
    exact ih fun c hc => h c (by simp [hc])

theorem mem_of_mem_takeWhile {α : Type} {p : α → Bool} {l : List α} {a : α}
    (h : a ∈ l.takeWhile p) : a ∈ l := by
  have hsplit := List.takeWhile_append_dropWhile p l
  rw [← hsplit]
  exact List.mem_append_left _ h

theorem mem_of_mem_dropWhile {α : Type} {p : α → Bool} {l : List α} {a : α}
    (h : a ∈ l.dropWhile p) : a ∈ l := by
  have hsplit := List.takeWhile_append_dropWhile p l
  rw [← hsplit]
  exact List.mem_append_right _ h

theorem trimChars_idem (cs : List Char) :
    trimChars (trimChars cs) = trimChars cs := by
  have hA : trimChars cs =
      ((cs.dropWhile isSpaceChar).reverse.dropWhile isSpaceChar).reverse := rfl
  by_cases hTnil : (cs.dropWhile isSpaceChar).reverse.dropWhile isSpaceChar = []
  · rw [hA, hTnil]
    rfl
  · have hTlast : ∀ c,
        ((cs.dropWhile isSpaceChar).reverse.dropWhile isSpaceChar).reverse.head? = some c →
        isSpaceChar c = false := by
      intro c hc
      rw [List.head?_reverse] at hc
      have hsplit :
          (cs.dropWhile isSpaceChar).reverse.takeWhile isSpaceChar ++
            (cs.dropWhile isSpaceChar).reverse.dropWhile isSpaceChar =
          (cs.dropWhile isSpaceChar).reverse :=
        List.takeWhile_append_dropWhile isSpaceChar _
      have hgl : (cs.dropWhile isSpaceChar).reverse.getLast? =
          ((cs.dropWhile isSpaceChar).reverse.dropWhile isSpaceChar).getLast? := by
        conv_lhs => rw [← hsplit]
        exact List.getLast?_append_of_ne_nil _ hTnil
      have hglh : (cs.dropWhile isSpaceChar).reverse.getLast? =
          (cs.dropWhile isSpaceChar).head? := List.getLast?_reverse _
      have hhead : (cs.dropWhile isSpaceChar).head? = some c := by
        rw [← hglh, hgl, hc]
      exact head_dropWhile_false isSpaceChar cs c hhead
    rw [hA]
    show ((((cs.dropWhile isSpaceChar).reverse.dropWhile isSpaceChar).reverse.dropWhile
        isSpaceChar).reverse.dropWhile isSpaceChar).reverse =
      ((cs.dropWhile isSpaceChar).reverse.dropWhile isSpaceChar).reverse
    rw [dropWhile_eq_self_of_head isSpaceChar _ hTlast, List.reverse_reverse]
    rw [dropWhile_eq_self_of_head isSpaceChar _
      (fun c hc => head_dropWhile_false isSpaceChar _ c hc)]

theorem trim_eq_self_of_noWs (l : List Char)
    (h : ∀ c ∈ l, isSpaceChar c = false) : trimChars l = l := by
  unfold trimChars
  rw [dropWhile_eq_self_of_all _ _ h]
  rw [dropWhile_eq_self_of_all _ _ fun c hc => h c (List.mem_reverse.mp hc)]
  exact List.reverse_reverse l

/- ------------------------------------------------------------------ -/
/- Validity of parsed URL components                                  -/
/- ------------------------------------------------------------------ -/

theorem parseUrl_components_valid (cs rest1 : List Char)
    (hws : ∀ c ∈ cs, isSpaceChar c = false)
    (hsch : ¬ cs.takeWhile isSchemeChar = [])
    (heq : cs.dropWhile isSchemeChar = ':' :: '/' :: '/' :: rest1)
    (hh : ¬ rest1.takeWhile isHostChar = []) :
    cs.takeWhile isSchemeChar ≠ [] ∧
    (∀ c ∈ cs.takeWhile isSchemeChar, isSchemeChar c = true) ∧
    rest1.takeWhile isHostChar ≠ [] ∧
    (∀ c ∈ rest1.takeWhile isHostChar, isHostChar c = true) ∧
    (∀ c ∈ (rest1.dropWhile isHostChar).takeWhile isPathChar,
      isPathChar c = true) ∧
    ((rest1.dropWhile isHostChar).takeWhile isPathChar = [] ∨
      ∃ t, (rest1.dropWhile isHostChar).takeWhile isPathChar = '/' :: t) ∧
    (∀ c ∈ cs.takeWhile isSchemeChar, isSpaceChar c = false) ∧
    (∀ c ∈ rest1.takeWhile isHostChar, isSpaceChar c = false) ∧
    (∀ c ∈ (rest1.dropWhile isHostChar).takeWhile isPathChar,
      isSpaceChar c = false) := by
  have hmemRest1 : ∀ c ∈ rest1, c ∈ cs := by
    intro c hc
    apply mem_of_mem_dropWhile (p := isSchemeChar)
    rw [heq]
    simp [hc]
  refine ⟨hsch, ?_, hh, ?_, ?_, ?_, ?_, ?_, ?_⟩
  · intro c hc; exact List.mem_takeWhile_imp hc
  · intro c hc; exact List.mem_takeWhile_imp hc
  · intro c hc; exact List.mem_takeWhile_imp hc
  · cases hrest2 : rest1.dropWhile isHostChar with
    | nil => left; rfl
    | cons c0 t2 =>
      by_cases hp : isPathChar c0
      · right
        refine ⟨t2.takeWhile isPathChar, ?_⟩
        have hc0 : isHostChar c0 = false := by
          apply head_dropWhile_false isHostChar rest1
          rw [hrest2]; rfl
        have hc0slash : c0 = '/' := by
          simp [isHostChar] at hc0
          simp [isPathChar] at hp
          tauto
        rw [List.takeWhile_cons_of_pos hp, hc0slash]
      · left
        rw [List.takeWhile_cons_of_neg hp]
  · intro c hc
    exact hws c (mem_of_mem_takeWhile hc)
  · intro c hc
    exact hws c (hmemRest1 c (mem_of_mem_takeWhile hc))
  · intro c hc
    exact hws c (hmemRest1 c
      (mem_of_mem_dropWhile (mem_of_mem_takeWhile hc)))

theorem parseUrl_valid (cs : List Char) (u : UrlParts)
    (h : parseUrl cs = some u) :
    u.scheme = cs.takeWhile isSchemeChar ∧
    (∃ rest1, cs.dropWhile isSchemeChar = ':' :: '/' :: '/' :: rest1 ∧
      u.host = rest1.takeWhile isHostChar ∧
      u.path = (rest1.dropWhile isHostChar).takeWhile isPathChar) ∧
    u.scheme ≠ [] ∧ (∀ c ∈ u.scheme, isSchemeChar c = true) ∧
    u.host ≠ [] ∧ (∀ c ∈ u.host, isHostChar c = true) ∧
    (∀ c ∈ u.path, isPathChar c = true) ∧
    (u.path = [] ∨ ∃ t, u.path = '/' :: t) ∧
    (∀ c ∈ u.scheme, isSpaceChar c = false) ∧
    (∀ c ∈ u.host, isSpaceChar c = false) ∧
    (∀ c ∈ u.path, isSpaceChar c = false) := by
  simp only [parseUrl] at h
  split at h
  · exact absurd h (by simp)
  next hws =>
  have hnows : ∀ c ∈ cs, isSpaceChar c = false := by
    intro c hc
    by_contra hcon
    exact hws (List.any_eq_true.mpr ⟨c, hc, by simpa using hcon⟩)
  split at h
  · exact absurd h (by simp)
  next hsch =>
  split at h
  case h_2 => exact absurd h (by simp)
  next rest1 heq =>
  split at h
  · exact absurd h (by simp)
  next hh =>
  have base := parseUrl_components_valid cs rest1 hnows hsch heq hh
  split at h
  · obtain rfl := (Option.some.inj h).symm
    exact ⟨rfl, ⟨rest1, heq, rfl, rfl⟩, base⟩
  · split at h
    · obtain rfl := (Option.some.inj h).symm
      exact ⟨rfl, ⟨rest1, heq, rfl, rfl⟩, base⟩
    · obtain rfl := (Option.some.inj h).symm
      exact ⟨rfl, ⟨rest1, heq, rfl, rfl⟩, base⟩
    · exact absurd h (by simp)
  · obtain rfl := (Option.some.inj h).symm
    exact ⟨rfl, ⟨rest1, heq, rfl, rfl⟩, base⟩
  · exact absurd h (by simp)

theorem parseUrl_serializeUrl (u : UrlParts)
    (h1 : u.scheme ≠ []) (h2 : ∀ c ∈ u.scheme, isSchemeChar c = true)
    (h3 : u.host ≠ []) (h4 : ∀ c ∈ u.host, isHostChar c = true)
    (h5 : ∀ c ∈ u.path, isPathChar c = true)
    (h6 : u.path = [] ∨ ∃ t, u.path = '/' :: t)
    (h7 : ∀ c ∈ u.scheme, isSpaceChar c = false)
    (h8 : ∀ c ∈ u.host, isSpaceChar c = false)
    (h9 : ∀ c ∈ u.path, isSpaceChar c = false)
    (hq : u.query = none) (hf : u.frag = none) :
    parseUrl (serializeUrl u) =
      some { u with path := if u.path = [] then ['/'] else u.path } := by
  set P := if u.path = [] then ['/'] else u.path with hPdef
  have hPcons : ∃ t, P = '/' :: t := by
    rcases h6 with hnil | ⟨t, ht⟩
    · exact ⟨[], by rw [hPdef, if_pos hnil]⟩
    · exact ⟨t, by rw [hPdef, if_neg (by rw [ht]; simp), ht]⟩
  obtain ⟨t0, hPt⟩ := hPcons
  have hPall : ∀ c ∈ P, isPathChar c = true := by
    rcases h6 with hnil | ⟨t, ht⟩
    · rw [hPdef, if_pos hnil]
      intro c hc
      simp at hc
      rw [hc]; rfl
    · rw [hPdef, if_neg (by rw [ht]; simp)]
      exact h5
  have hPws : ∀ c ∈ P, isSpaceChar c = false := by
    rcases h6 with hnil | ⟨t, ht⟩
    · rw [hPdef, if_pos hnil]
      intro c hc
      simp at hc
      rw [hc]; rfl
    · rw [hPdef, if_neg (by rw [ht]; simp)]
      exact h9
  have hser : serializeUrl u = u.scheme ++ ':' :: '/' :: '/' :: (u.host ++ P) := by
    rw [serializeUrl, hq, hf, ← hPdef]
    simp
  have eany : (u.scheme ++ ':' :: '/' :: '/' :: (u.host ++ P)).any isSpaceChar = false := by
    rw [List.any_eq_false]
    intro c hc
    simp only [List.mem_append, List.mem_cons] at hc
    rcases hc with hs | hcc
    · simp [h7 c hs]
    · rcases hcc with rfl | rfl | rfl | hhp
      · decide
      · decide
      · decide
      · rcases hhp with hh | hp
        · simp [h8 c hh]
        · simp [hPws c hp]
  have e1 : (u.scheme ++ ':' :: '/' :: '/' :: (u.host ++ P)).takeWhile isSchemeChar
      = u.scheme := by
    rw [List.takeWhile_append_of_pos h2, List.takeWhile_cons_of_neg (by decide)]
    exact List.append_nil _
  have e2 : (u.scheme ++ ':' :: '/' :: '/' :: (u.host ++ P)).dropWhile isSchemeChar
      = ':' :: '/' :: '/' :: (u.host ++ P) := by
    rw [List.dropWhile_append_of_pos h2, List.dropWhile_cons_of_neg (by decide)]
  have e3 : (u.host ++ P).takeWhile isHostChar = u.host := by
    rw [List.takeWhile_append_of_pos h4, hPt,
      List.takeWhile_cons_of_neg (by decide)]
    exact List.append_nil _
  have e4 : (u.host ++ P).dropWhile isHostChar = P := by
    rw [List.dropWhile_append_of_pos h4, hPt,
      List.dropWhile_cons_of_neg (by decide)]
  have e5 : P.takeWhile isPathChar = P := takeWhile_eq_self_of_all _ _ hPall
  have e6 : P.dropWhile isPathChar = [] := dropWhile_eq_nil_of_all _ _ hPall
  rw [hser]
  simp only [parseUrl, eany, e1, e2, e3, e4, e5, e6]
  simp [h1, h3, hq, hf]

theorem serializeUrl_noWs (u : UrlParts)
    (h7 : ∀ c ∈ u.scheme, isSpaceChar c = false)
    (h8 : ∀ c ∈ u.host, isSpaceChar c = false)
    (h9 : ∀ c ∈ u.path, isSpaceChar c = false)
    (hq : u.query = none) (hf : u.frag = none) :
    ∀ c ∈ serializeUrl u, isSpaceChar c = false := by
  intro c hc
  rw [serializeUrl, hq, hf] at hc
  simp only [List.append_nil, List.mem_append] at hc
  rcases hc with ((hs | hg) | hx) | hy
  · exact h7 c hs
  · simp only [List.mem_cons, List.not_mem_nil, or_false] at hg
    rcases hg with rfl | rfl | rfl <;> rfl
  · exact h8 c hx
  · by_cases hpath : u.path = []
    · rw [if_pos hpath] at hy
      simp at hy
      rw [hy]; rfl
    · rw [if_neg hpath] at hy
      exact h9 c hy

theorem normalizeUrl_roundtrip (cs : List Char) (u : UrlParts)
    (hp : parseUrl (trimChars cs) = some u) :
    normalizeUrl cs = serializeUrl { u with query := none, frag := none } ∧
    trimChars (normalizeUrl cs) = normalizeUrl cs ∧
    parseUrl (normalizeUrl cs) =
      some { u with path := if u.path = [] then ['/'] else u.path,
                    query := none, frag := none } := by
  obtain ⟨hs_eq, ⟨rest1, heq, hh_eq, hp_eq⟩, h1, h2, h3, h4, h5, h6, h7, h8, h9⟩ :=
    parseUrl_valid _ _ hp
  have hnorm : normalizeUrl cs =
      serializeUrl { u with query := none, frag := none } := by
    unfold normalizeUrl
    rw [hp]
  have hnws : ∀ c ∈ serializeUrl { u with query := none, frag := none },
      isSpaceChar c = false :=
    serializeUrl_noWs _ h7 h8 h9 rfl rfl
  have hrt := parseUrl_serializeUrl { u with query := none, frag := none }
    h1 h2 h3 h4 h5 h6 h7 h8 h9 rfl rfl
  refine ⟨hnorm, ?_, ?_⟩
  · rw [hnorm]
    exact trim_eq_self_of_noWs _ hnws
  · rw [hnorm, hrt]

theorem normalizeUrl_idem (cs : List Char) :
    normalizeUrl (normalizeUrl cs) = normalizeUrl cs := by
  cases hp : parseUrl (trimChars cs) with
  | none =>
    have h1 : normalizeUrl cs = trimChars cs := by
      unfold normalizeUrl
      rw [hp]
    rw [h1]
    unfold normalizeUrl
    rw [trimChars_idem, hp]
  | some u =>
    obtain ⟨hnorm, htrim, hparse⟩ := normalizeUrl_roundtrip cs u hp
    conv_lhs => rw [normalizeUrl]
    rw [htrim, hparse]
    rw [hnorm]
    by_cases hpath : u.path = []
    · simp [serializeUrl, hpath]
    · simp [serializeUrl, hpath]

/- ------------------------------------------------------------------ -/
/- Claim C7                                                           -/
/- ------------------------------------------------------------------ -/

/-- C7: `normalizeUrl` strips the query and the fragment (a parseable
input normalizes to a URL that parses with no query and no fragment,
same scheme and host) and is idempotent; `makeArchiveId` depends on the
URL only through its normalization, so it is deterministic and two URLs
that differ only in query string or fragment (same scheme, host and
path) receive the same archive id for the same title. -/
theorem C7_normalize_and_archive_id :
    (∀ cs : List Char, normalizeUrl (normalizeUrl cs) = normalizeUrl cs) ∧
    (∀ (cs : List Char) (u : UrlParts), parseUrl (trimChars cs) = some u →
      ∃ v : UrlParts, parseUrl (normalizeUrl cs) = some v ∧
        v.scheme = u.scheme ∧ v.host = u.host ∧
        v.query = none ∧ v.frag = none) ∧
    (∀ u1 u2 t : List Char, normalizeUrl u1 = normalizeUrl u2 →
      makeArchiveId u1 t = makeArchiveId u2 t) ∧
    (∀ (u1 u2 : List Char) (c1 c2 : UrlParts) (t : List Char),
      parseUrl (trimChars u1) = some c1 → parseUrl (trimChars u2) = some c2 →
      c1.scheme = c2.scheme → c1.host = c2.host → c1.path = c2.path →
      makeArchiveId u1 t = makeArchiveId u2 t) := by
  have hserialize : ∀ (c1 c2 : UrlParts), c1.scheme = c2.scheme →
      c1.host = c2.host → c1.path = c2.path →
      serializeUrl { c1 with query := none, frag := none } =
        serializeUrl { c2 with query := none, frag := none } := by
    intro c1 c2 hs hh hp
    unfold serializeUrl
    simp [hs, hh, hp]
  refine ⟨normalizeUrl_idem, ?_, ?_, ?_⟩
  · intro cs u hp
    obtain ⟨_, _, hparse⟩ := normalizeUrl_roundtrip cs u hp
    exact ⟨_, hparse, rfl, rfl, rfl, rfl⟩
  · intro u1 u2 t h
    unfold makeArchiveId
    rw [h]
  · intro u1 u2 c1 c2 t hp1 hp2 hs hh hp
    have hn1 := (normalizeUrl_roundtrip u1 c1 hp1).1
    have hn2 := (normalizeUrl_roundtrip u2 c2 hp2).1
    have hnn : normalizeUrl u1 = normalizeUrl u2 := by
      rw [hn1, hn2]
      exact hserialize c1 c2 hs hh hp
    unfold makeArchiveId
    rw [hnn]

/-- C7 witness: two concrete URLs differing only by query string versus
fragment receive the same archive id. -/
theorem C7_normalize_and_archive_id_witness :
    makeArchiveId ("https://example.com/a?x=1".toList) ("Some Title".toList) =
      makeArchiveId ("https://example.com/a#frag".toList) ("Some Title".toList) :=
  C7_normalize_and_archive_id.2.2.2
    ("https://example.com/a?x=1".toList) ("https://example.com/a#frag".toList)
    { scheme := "https".toList, host := "example.com".toList,
      path := "/a".toList, query := some ("x=1".toList), frag := none }
    { scheme := "https".toList, host := "example.com".toList,
      path := "/a".toList, query := none, frag := some ("frag".toList) }
    ("Some Title".toList)
    (by decide) (by decide) (by decide) (by decide) (by decide)

/- ------------------------------------------------------------------ -/
/- Claim C10                                                          -/
/- ------------------------------------------------------------------ -/

/-- Lowercase hexadecimal digit: 0-9 or a-f. -/
def isLowerHexChar (c : Char) : Bool :=
  c.isDigit || decide (97 ≤ c.toNat ∧ c.toNat ≤ 102)

theorem hexCharLower_hex : ∀ n, n < 16 → isLowerHexChar (hexCharLower n) = true := by
  decide

theorem toHex_all_hex (bytes : List Nat) :
    ∀ c ∈ toHex bytes, isLowerHexChar c = true := by
  intro c hc
  rw [toHex] at hc
  simp only [List.mem_flatMap] at hc
  obtain ⟨b, _, hcb⟩ := hc
  simp only [List.mem_cons, List.not_mem_nil, or_false] at hcb
  rcases hcb with rfl | rfl
  · exact hexCharLower_hex _ (Nat.mod_lt _ (by decide))
  · exact hexCharLower_hex _ (Nat.mod_lt _ (by decide))

theorem toHex_length (bytes : List Nat) :
    (toHex bytes).length = 2 * bytes.length := by
  induction bytes with
  | nil => rfl
  | cons b t ih =>
    simp only [toHex, List.flatMap_cons, List.length_append, List.length_cons,
      List.length_nil] at ih ⊢
    omega

theorem md5Digest_length (msg : List Nat) : (md5Digest msg).length = 16 := by
  simp [md5Digest, wordBytesLE]

theorem md5Hash_length_eight (input : List Char) :
    (md5Hash input 8).length = 8 := by
  rw [md5Hash, List.length_take, toHex_length, md5Digest_length]
  rfl

theorem md5Hash_all_hex (input : List Char) :
    ∀ c ∈ md5Hash input 8, isLowerHexChar c = true := by
  intro c hc
  exact toHex_all_hex _ c (List.mem_of_mem_take hc)

/-- C10: `normalizeUrl` is total — an input the URL model cannot parse is
returned as its trimmed self, never an error — and `makeArchiveId` is
defined on every string: it always has the shape slug, underscore, then
exactly 8 lowercase hexadecimal characters, the slug falling back to
"untitled" on an empty title, and the identifier is never empty. -/
theorem C10_total_and_id_format :
    (∀ cs : List Char, parseUrl (trimChars cs) = none →
      normalizeUrl cs = trimChars cs) ∧
    (∀ url title : List Char,
      makeArchiveId url title =
        slugifyTitle title ++ '_' :: md5Hash (normalizeUrl url) 8 ∧
      (md5Hash (normalizeUrl url) 8).length = 8 ∧
      (∀ c ∈ md5Hash (normalizeUrl url) 8, isLowerHexChar c = true) ∧
      (title = [] → slugifyTitle title = "untitled".toList) ∧
      makeArchiveId url title ≠ []) := by
  constructor
  · intro cs h
    unfold normalizeUrl
    rw [h]
  · intro url title
    refine ⟨rfl, md5Hash_length_eight _, md5Hash_all_hex _, ?_, ?_⟩
    · intro h
      rw [slugifyTitle, if_pos h]
    · rw [makeArchiveId]
      intro hcon
      have := List.append_eq_nil.mp hcon
      exact absurd this.2 (by simp)

/-- C10 witness: a string that is not a URL still normalizes (to its
trimmed self) rather than raising an error. -/
theorem C10_total_and_id_format_witness :
    normalizeUrl ("not a url ".toList) = trimChars ("not a url ".toList) :=
  C10_total_and_id_format.1 ("not a url ".toList) (by decide)

/- ------------------------------------------------------------------ -/
/- Element matcher text normalization and term matching (claim C4)    -/
/- ------------------------------------------------------------------ -/

/-- Straight apostrophe. -/
def apos : Char := Char.ofNat 39

/-- Right single quotation mark. -/
def rightQuote : Char := Char.ofNat 8217

/-- Left single quotation mark. -/
def leftQuote : Char := Char.ofNat 8216

/-- Replacement of curly single quotes by the straight apostrophe, the
effect of the character class replace in the matcher's `normalize`. -/
def unifyQuote (c : Char) : Char :=
  if c = rightQuote ∨ c = leftQuote then apos else c

/-- Replacement of every character outside word characters, whitespace
and the apostrophe by a space, the effect of the second replace in the
matcher's `normalize`. -/
def keepWordSpaceApos (c : Char) : Char :=
  if isWordChar c || isSpaceChar c || c == apos then c else ' '

/-- Embedding of the matcher's `normalize`
(src/find-cancel-elements.js 358-362): lowercase, unify smart quotes,
strip punctuation except apostrophes, trim. -/
def normalizeText (cs : List Char) : List Char :=
  trimChars (((cs.map Char.toLower).map unifyQuote).map keepWordSpaceApos)

/-- Splitting on whitespace runs (the behaviour of `split(/\s+/)` on a
trimmed string): maximal nonempty runs of non-whitespace characters, in
order.  The accumulator holds the current token reversed. -/
def splitWsGo : List Char → List Char → List (List Char)
  | [], acc => if acc = [] then [] else [acc.reverse]
  | c :: rest, acc =>
    if isSpaceChar c then
      if acc = [] then splitWsGo rest []
      else acc.reverse :: splitWsGo rest []
    else splitWsGo rest (c :: acc)

/-- Whitespace-split tokens of a character sequence. -/
def splitWs (cs : List Char) : List (List Char) :=
  splitWsGo cs []

/-- Model of `localeCompare(t, undefined, sensitivity "accent") === 0`:
equality ignoring letter case (accents remain significant). -/
def localeEqAccent (a b : List Char) : Bool :=
  a.map Char.toLower == b.map Char.toLower

/-- Literal prefix test over character lists. -/
def leadsWith : List Char → List Char → Bool
  | [], _ => true
  | _ :: _, [] => false
  | p :: ps, c :: cs => p == c && leadsWith ps cs

/-- Matching of the literal phrase tokens with elastic internal
whitespace (the `\s+` the matcher substitutes for each whitespace run of
the term): each token must occur literally, consecutive tokens separated
by at least one whitespace character.  Returns the unconsumed suffix. -/
def matchToks : List (List Char) → List Char → Option (List Char)
  | [], s => some s
  | tok :: toks, s =>
    if leadsWith tok s then
      match toks with
      | [] => some (s.drop tok.length)
      | _ :: _ =>
        if (s.drop tok.length).takeWhile isSpaceChar = [] then none
        else matchToks toks ((s.drop tok.length).dropWhile isSpaceChar)
    else none

/-- Word-character status of the first character (false for the empty
list), used for the regex word-boundary test. -/
def headIsWord (s : List Char) : Bool :=
  match s with
  | [] => false
  | c :: _ => isWordChar c

/-- Word-character status of the last character (false for the empty
list). -/
def lastIsWord (s : List Char) : Bool :=
  match s.getLast? with
  | none => false
  | some c => isWordChar c

/-- Last character of the phrase pattern (used for the closing word
boundary; a space placeholder when the pattern is empty). -/
def lastCharOfToks (toks : List (List Char)) : Char :=
  (toks.getLastD []).getLastD ' '

/-- Attempt to match the word-bounded phrase at the current position:
an opening boundary between the previous character and the first matched
character, the literal tokens with elastic whitespace, and a closing
boundary between the last matched character and the following one. -/
def tryPhraseAt (toks : List (List Char)) (prevW : Bool) (s : List Char) : Bool :=
  (prevW != headIsWord s) &&
    (match matchToks toks s with
     | none => false
     | some rest => isWordChar (lastCharOfToks toks) != headIsWord rest)

/-- Scan of the text for a word-bounded phrase occurrence, carrying the
word-character status of the previous character (false at the start of
the text, matching the regex semantics of `\b` at position 0). -/
def scanPhrase (toks : List (List Char)) : Bool → List Char → Bool
  | prevW, [] => tryPhraseAt toks prevW []
  | prevW, c :: rest =>
    tryPhraseAt toks prevW (c :: rest) || scanPhrase toks (isWordChar c) rest

/-- Embedding of the per-term branch of the matcher
(src/find-cancel-elements.js 367-378): the term is lowercased and
trimmed; a term of length at most 3 is compared (case-insensitively,
accent-sensitively) against the whitespace-split tokens of the
normalized text; a longer term is matched as a word-bounded phrase with
every internal whitespace run elastic.  The case-insensitive regex flag
is modelled by exact comparison, both sides being lowercase already. -/
def matchesSearchTerm (term text : List Char) : Bool :=
  let txt := normalizeText text
  let t := trimChars (term.map Char.toLower)
  if t.length ≤ 3 then
    (splitWs txt).any fun w => localeEqAccent w t
  else
    scanPhrase (splitWs t) false txt

/-- Phrase-body shape from the spec's words: the term's tokens in order,
consecutive tokens separated by a nonempty whitespace run. -/
def PhraseBody : List (List Char) → List Char → Prop
  | [], mid => mid = []
  | [tok], mid => mid = tok
  | tok :: toks, mid =>
    ∃ ws rest, mid = tok ++ ws ++ rest ∧ ws ≠ [] ∧
      (∀ c ∈ ws, isSpaceChar c = true) ∧ PhraseBody toks rest

/-- Spec-side statement of the long-term rule: the phrase occurs in the
text as a word-bounded occurrence — a decomposition into a prefix, the
phrase body, and a suffix, with a word boundary on each side. -/
def SpecPhraseMatch (toks : List (List Char)) (txt : List Char) : Prop :=
  ∃ pre mid post, txt = pre ++ mid ++ post ∧ PhraseBody toks mid ∧
    (lastIsWord pre ≠ headIsWord mid) ∧ (lastIsWord mid ≠ headIsWord post)

theorem leadsWith_iff : ∀ p s : List Char, leadsWith p s = true ↔ ∃ r, s = p ++ r := by
  intro p
  induction p with
  | nil =>
    intro s
    simp [leadsWith]
  | cons a ps ih =>
    intro s
    cases s with
    | nil =>
      rw [leadsWith]
      simp
    | cons c cs =>
      rw [leadsWith]
      simp only [Bool.and_eq_true, beq_iff_eq, ih cs]
      constructor
      · rintro ⟨rfl, r, rfl⟩
        exact ⟨r, rfl⟩
      · rintro ⟨r, hr⟩
        injection hr with h1 h2
        exact ⟨h1.symm, r, h2⟩

theorem PhraseBody_starts (tok : List Char) (toks : List (List Char))
    (mid : List Char) (h : PhraseBody (tok :: toks) mid) :
    ∃ r, mid = tok ++ r := by
  cases toks with
  | nil =>
    rw [show PhraseBody [tok] mid = (mid = tok) from rfl] at h
    exact ⟨[], by rw [h, List.append_nil]⟩
  | cons tk2 ts =>
    obtain ⟨ws, rest, hmid, _, _, _⟩ := h
    exact ⟨ws ++ rest, by rw [hmid]; simp [List.append_assoc]⟩

theorem matchToks_iff :
    ∀ toks : List (List Char),
      (∀ tok ∈ toks, tok ≠ [] ∧ ∀ c ∈ tok, isSpaceChar c = false) →
      ∀ s rest : List Char, matchToks toks s = some rest ↔
        ∃ mid, s = mid ++ rest ∧ PhraseBody toks mid := by
  intro toks
  induction toks with
  | nil =>
    intro _ s rest
    rw [show matchToks [] s = some s from rfl]
    constructor
    · intro h
      exact ⟨[], by simpa using Option.some.inj h, rfl⟩
    · rintro ⟨mid, hs, hpb⟩
      rw [show PhraseBody [] mid = (mid = []) from rfl] at hpb
      rw [hs, hpb, List.nil_append]
  | cons tok toks ih =>
    intro hval s rest
    have htok := hval tok (by simp)
    have hrest : ∀ tk ∈ toks, tk ≠ [] ∧ ∀ c ∈ tk, isSpaceChar c = false :=
      fun tk htk => hval tk (by simp [htk])
    cases toks with
    | nil =>
      rw [show matchToks [tok] s =
        (if leadsWith tok s = true then some (s.drop tok.length) else none)
        from rfl]
      by_cases hlw : leadsWith tok s = true
      · rw [if_pos hlw]
        obtain ⟨r0, hr0⟩ := (leadsWith_iff tok s).mp hlw
        have hdrop : s.drop tok.length = r0 := by
          rw [hr0]
          exact List.drop_left _ _
        constructor
        · intro h
          have hrf : r0 = rest := by
            rw [hdrop] at h
            exact Option.some.inj h
          refine ⟨tok, ?_, rfl⟩
          rw [hr0, hrf]
        · rintro ⟨mid, hs, hpb⟩
          rw [show PhraseBody [tok] mid = (mid = tok) from rfl] at hpb
          subst hpb
          rw [hdrop]
          have hco : mid ++ r0 = mid ++ rest := hr0.symm.trans hs
          have heq : r0 = rest := by
            have h2 := congrArg (List.drop mid.length) hco
            rwa [List.drop_left, List.drop_left] at h2
          rw [heq]
      · rw [if_neg hlw]
        constructor
        · intro h
          exact absurd h (by simp)
        · rintro ⟨mid, hs, hpb⟩
          obtain ⟨r2, hr2⟩ := PhraseBody_starts tok [] mid hpb
          refine absurd ((leadsWith_iff tok s).mpr ⟨r2 ++ rest, ?_⟩) hlw
          rw [hs, hr2]
          simp [List.append_assoc]
    | cons tk2 ts =>
      rw [show matchToks (tok :: tk2 :: ts) s =
        (if leadsWith tok s = true then
          (if (s.drop tok.length).takeWhile isSpaceChar = [] then none
           else matchToks (tk2 :: ts)
             ((s.drop tok.length).dropWhile isSpaceChar))
         else none) from rfl]
      by_cases hlw : leadsWith tok s = true
      · rw [if_pos hlw]
        obtain ⟨r0, hr0⟩ := (leadsWith_iff tok s).mp hlw
        have hdrop : s.drop tok.length = r0 := by
          rw [hr0]
          exact List.drop_left _ _
        by_cases hws : (s.drop tok.length).takeWhile isSpaceChar = []
        · rw [if_pos hws]
          constructor
          · intro h
            exact absurd h (by simp)
          · rintro ⟨mid, hs, hpb⟩
            obtain ⟨ws, rest2, hmid, hwsne, hwssp, hpb2⟩ := hpb
            have hs1 : s.drop tok.length = ws ++ (rest2 ++ rest) := by
              have hsx : s = tok ++ (ws ++ (rest2 ++ rest)) := by
                rw [hs, hmid]
                simp [List.append_assoc]
              rw [hsx]
              exact List.drop_left _ _
            rw [hs1, List.takeWhile_append_of_pos hwssp] at hws
            exact (hwsne (List.append_eq_nil.mp hws).1).elim
        · rw [if_neg hws]
          rw [ih hrest _ rest]
          constructor
          · rintro ⟨mid2, hs2, hpb2⟩
            refine ⟨tok ++ ((s.drop tok.length).takeWhile isSpaceChar ++ mid2),
              ?_, ?_⟩
            · have hsplit :=
                List.takeWhile_append_dropWhile isSpaceChar (s.drop tok.length)
              calc s = tok ++ s.drop tok.length := by rw [hdrop, hr0]
                _ = tok ++ ((s.drop tok.length).takeWhile isSpaceChar ++
                      (s.drop tok.length).dropWhile isSpaceChar) := by
                    rw [hsplit]
                _ = tok ++ ((s.drop tok.length).takeWhile isSpaceChar ++
                      (mid2 ++ rest)) := by rw [hs2]
                _ = tok ++ ((s.drop tok.length).takeWhile isSpaceChar ++ mid2) ++
                      rest := by simp [List.append_assoc]
            · refine ⟨(s.drop tok.length).takeWhile isSpaceChar, mid2,
                by simp [List.append_assoc], hws, ?_, hpb2⟩
              intro c hc
              exact List.mem_takeWhile_imp hc
          · rintro ⟨mid, hs, hpb⟩
            obtain ⟨ws, rest2, hmid, hwsne, hwssp, hpb2⟩ := hpb
            obtain ⟨r2, hr2⟩ := PhraseBody_starts tk2 ts rest2 hpb2
            have htk2 := hrest tk2 (by simp)
            obtain ⟨c2, t2c, hc2⟩ : ∃ c2 t2c, tk2 = c2 :: t2c := by
              cases tk2 with
              | nil => exact absurd rfl htk2.1
              | cons c2 t2c => exact ⟨c2, t2c, rfl⟩
            have hc2ns : isSpaceChar c2 = false :=
              htk2.2 c2 (by rw [hc2]; simp)
            have hs1 : s.drop tok.length = ws ++ (rest2 ++ rest) := by
              have hsx : s = tok ++ (ws ++ (rest2 ++ rest)) := by
                rw [hs, hmid]
                simp [List.append_assoc]
              rw [hsx]
              exact List.drop_left _ _
            have hdw : (s.drop tok.length).dropWhile isSpaceChar =
                rest2 ++ rest := by
              rw [hs1, List.dropWhile_append_of_pos hwssp, hr2, hc2]
              simp only [List.cons_append]
              rw [List.dropWhile_cons_of_neg (by simp [hc2ns])]
            rw [hdw]
            exact ⟨rest2, rfl, hpb2⟩
      · rw [if_neg hlw]
        constructor
        · intro h
          exact absurd h (by simp)
        · rintro ⟨mid, hs, hpb⟩
          obtain ⟨r2, hr2⟩ := PhraseBody_starts tok (tk2 :: ts) mid hpb
          refine absurd ((leadsWith_iff tok s).mpr ⟨r2 ++ rest, ?_⟩) hlw
          rw [hs, hr2]
          simp [List.append_assoc]

theorem PhraseBody_ne_nil (toks : List (List Char)) (mid : List Char)
    (hne : toks ≠ []) (hval1 : ∀ tok ∈ toks, tok ≠ [])
    (h : PhraseBody toks mid) : mid ≠ [] := by
  cases toks with
  | nil => exact absurd rfl hne
  | cons tok ts =>
    obtain ⟨r, hr⟩ := PhraseBody_starts tok ts mid h
    rw [hr]
    have htk := hval1 tok (by simp)
    cases tok with
    | nil => exact absurd rfl htk
    | cons c cc => simp

theorem getLastD_irrel {α : Type} :
    ∀ (l : List α) (a b : α), l ≠ [] → l.getLastD a = l.getLastD b := by
  intro l a b h
  cases l with
  | nil => exact absurd rfl h
  | cons x xs => rw [List.getLastD_cons, List.getLastD_cons]

theorem lastIsWord_eq_getLastD :
    ∀ l : List Char, l ≠ [] → lastIsWord l = isWordChar (l.getLastD ' ') := by
  intro l
  induction l with
  | nil => intro h; exact absurd rfl h
  | cons x xs ih =>
    intro _
    cases xs with
    | nil => rfl
    | cons y ys =>
      have h1 : lastIsWord (x :: y :: ys) = lastIsWord (y :: ys) := by
        rw [lastIsWord, lastIsWord, List.getLast?_cons_cons]
      have h2 : (x :: y :: ys).getLastD ' ' = (y :: ys).getLastD ' ' := by
        rw [List.getLastD_cons (' ') x (y :: ys)]
        exact getLastD_irrel (y :: ys) x ' ' (by simp)
      rw [h1, h2]
      exact ih (by simp)

theorem lastIsWord_append (a b : List Char) (h : b ≠ []) :
    lastIsWord (a ++ b) = lastIsWord b := by
  rw [lastIsWord, lastIsWord, List.getLast?_append_of_ne_nil _ h]

theorem headIsWord_append (a b : List Char) (h : a ≠ []) :
    headIsWord (a ++ b) = headIsWord a := by
  cases a with
  | nil => exact absurd rfl h
  | cons c cc => rfl

theorem PhraseBody_last :
    ∀ (toks : List (List Char)) (mid : List Char),
      toks ≠ [] → (∀ tok ∈ toks, tok ≠ []) → PhraseBody toks mid →
      lastIsWord mid = isWordChar (lastCharOfToks toks) := by
  intro toks
  induction toks with
  | nil =>
    intro mid h _ _
    exact absurd rfl h
  | cons tok toks ih =>
    intro mid _ hne hpb
    cases toks with
    | nil =>
      rw [show PhraseBody [tok] mid = (mid = tok) from rfl] at hpb
      subst hpb
      rw [show lastCharOfToks [mid] = mid.getLastD ' ' from rfl]
      exact lastIsWord_eq_getLastD mid (hne mid (by simp))
    | cons tk2 ts =>
      obtain ⟨ws, rest, hmid, hwsne, _, hpb2⟩ := hpb
      have hrne : rest ≠ [] :=
        PhraseBody_ne_nil (tk2 :: ts) rest (by simp)
          (fun tk htk => hne tk (by simp [htk])) hpb2
      have hwr : ws ++ rest ≠ [] := by
        intro hcon
        exact hwsne (List.append_eq_nil.mp hcon).1
      rw [hmid,
        show tok ++ ws ++ rest = tok ++ (ws ++ rest) from by
          simp [List.append_assoc],
        lastIsWord_append _ _ hwr, lastIsWord_append _ _ hrne]
      have h0 : (tok :: tk2 :: ts).getLastD ([] : List Char) =
          (tk2 :: ts).getLastD tok := List.getLastD_cons _ _ _
      have h1 : (tk2 :: ts).getLastD tok = (tk2 :: ts).getLastD [] :=
        getLastD_irrel (tk2 :: ts) tok [] (by simp)
      have hlast : lastCharOfToks (tok :: tk2 :: ts) =
          lastCharOfToks (tk2 :: ts) := by
        rw [lastCharOfToks, lastCharOfToks, h0, h1]
      rw [hlast]
      exact ih rest (by simp) (fun tk htk => hne tk (by simp [htk])) hpb2

theorem tryPhraseAt_iff (toks : List (List Char)) (hne : toks ≠ [])
    (hval : ∀ tok ∈ toks, tok ≠ [] ∧ ∀ c ∈ tok, isSpaceChar c = false)
    (prevW : Bool) (s : List Char) :
    tryPhraseAt toks prevW s = true ↔
      ∃ mid post, s = mid ++ post ∧ PhraseBody toks mid ∧
        (prevW ≠ headIsWord mid) ∧ (lastIsWord mid ≠ headIsWord post) := by
  rw [tryPhraseAt]
  constructor
  · intro h
    rw [Bool.and_eq_true] at h
    obtain ⟨hb, hm⟩ := h
    cases hmt : matchToks toks s with
    | none =>
      rw [hmt] at hm
      simp at hm
    | some rest =>
      rw [hmt] at hm
      obtain ⟨mid, hs, hpb⟩ := (matchToks_iff toks hval s rest).mp hmt
      have hmne : mid ≠ [] :=
        PhraseBody_ne_nil toks mid hne (fun tk htk => (hval tk htk).1) hpb
      refine ⟨mid, rest, hs, hpb, ?_, ?_⟩
      · have hb2 : prevW ≠ headIsWord s := bne_iff_ne.mp hb
        rwa [hs, headIsWord_append mid rest hmne] at hb2
      · rw [PhraseBody_last toks mid hne (fun tk htk => (hval tk htk).1) hpb]
        exact bne_iff_ne.mp hm
  · rintro ⟨mid, post, hs, hpb, hb, hm⟩
    have hmne : mid ≠ [] :=
      PhraseBody_ne_nil toks mid hne (fun tk htk => (hval tk htk).1) hpb
    have hmt := (matchToks_iff toks hval s post).mpr ⟨mid, hs, hpb⟩
    rw [hmt, Bool.and_eq_true]
    constructor
    · apply bne_iff_ne.mpr
      rw [hs, headIsWord_append mid post hmne]
      exact hb
    · apply bne_iff_ne.mpr
      rw [← PhraseBody_last toks mid hne (fun tk htk => (hval tk htk).1) hpb]
      exact hm

/-- Word-character status of the character preceding the current scan
position: the last character of the consumed prefix, or the status the
scan was started with when nothing has been consumed yet. -/
def lastIsWordFrom (prevW : Bool) (pre : List Char) : Bool :=
  match pre.getLast? with
  | none => prevW
  | some c => isWordChar c

theorem lastIsWordFrom_cons (prevW : Bool) (c : Char) (pre : List Char) :
    lastIsWordFrom prevW (c :: pre) = lastIsWordFrom (isWordChar c) pre := by
  cases pre with
  | nil => rfl
  | cons y ys =>
    have hgl : (y :: ys).getLast? = some ((y :: ys).getLast (by simp)) :=
      List.getLast?_eq_getLast _ (by simp)
    rw [lastIsWordFrom, lastIsWordFrom, List.getLast?_cons_cons, hgl]

theorem lastIsWordFrom_false (pre : List Char) :
    lastIsWordFrom false pre = lastIsWord pre := by
  cases hp : pre.getLast? <;> simp [lastIsWordFrom, lastIsWord, hp]

theorem scanPhrase_iff (toks : List (List Char)) (hne : toks ≠ [])
    (hval : ∀ tok ∈ toks, tok ≠ [] ∧ ∀ c ∈ tok, isSpaceChar c = false) :
    ∀ (s : List Char) (prevW : Bool),
      scanPhrase toks prevW s = true ↔
        ∃ pre mid post, s = pre ++ mid ++ post ∧ PhraseBody toks mid ∧
          (lastIsWordFrom prevW pre ≠ headIsWord mid) ∧
          (lastIsWord mid ≠ headIsWord post) := by
  intro s
  induction s with
  | nil =>
    intro prevW
    rw [show scanPhrase toks prevW [] = tryPhraseAt toks prevW [] from rfl]
    rw [tryPhraseAt_iff toks hne hval]
    constructor
    · rintro ⟨mid, post, hs, hpb, hb, hm⟩
      exact ⟨[], mid, post, by simpa using hs, hpb, hb, hm⟩
    · rintro ⟨pre, mid, post, hs, hpb, hb, hm⟩
      have hmnil : mid = [] := by
        have h0 := hs.symm
        rw [List.append_assoc] at h0
        have h1 := List.append_eq_nil.mp h0
        exact (List.append_eq_nil.mp h1.2).1
      exact absurd hmnil
        (PhraseBody_ne_nil toks mid hne (fun tk htk => (hval tk htk).1) hpb)
  | cons c rest ih =>
    intro prevW
    rw [show scanPhrase toks prevW (c :: rest) =
      (tryPhraseAt toks prevW (c :: rest) ||
        scanPhrase toks (isWordChar c) rest) from rfl]
    rw [Bool.or_eq_true, tryPhraseAt_iff toks hne hval, ih (isWordChar c)]
    constructor
    · rintro (⟨mid, post, hs, hpb, hb, hm⟩ | ⟨pre, mid, post, hs, hpb, hb, hm⟩)
      · exact ⟨[], mid, post, by simpa using hs, hpb, hb, hm⟩
      · refine ⟨c :: pre, mid, post, by rw [hs]; rfl, hpb, ?_, hm⟩
        rwa [lastIsWordFrom_cons]
    · rintro ⟨pre, mid, post, hs, hpb, hb, hm⟩
      cases pre with
      | nil =>
        left
        exact ⟨mid, post, by simpa using hs, hpb, hb, hm⟩
      | cons c0 pre2 =>
        right
        have hs2 : c :: rest = c0 :: (pre2 ++ mid ++ post) := by
          simpa using hs
        injection hs2 with h1 h2
        subst h1
        refine ⟨pre2, mid, post, h2, hpb, ?_, hm⟩
        rwa [lastIsWordFrom_cons] at hb

theorem scanPhrase_spec (toks : List (List Char)) (hne : toks ≠ [])
    (hval : ∀ tok ∈ toks, tok ≠ [] ∧ ∀ c ∈ tok, isSpaceChar c = false)
    (txt : List Char) :
    scanPhrase toks false txt = true ↔ SpecPhraseMatch toks txt := by
  rw [scanPhrase_iff toks hne hval txt false, SpecPhraseMatch]
  constructor
  · rintro ⟨pre, mid, post, h1, h2, h3, h4⟩
    exact ⟨pre, mid, post, h1, h2, by rwa [lastIsWordFrom_false] at h3, h4⟩
  · rintro ⟨pre, mid, post, h1, h2, h3, h4⟩
    exact ⟨pre, mid, post, h1, h2, by rwa [lastIsWordFrom_false], h4⟩

theorem splitWsGo_tokens :
    ∀ s acc : List Char, (∀ c ∈ acc, isSpaceChar c = false) →
      ∀ w ∈ splitWsGo s acc, w ≠ [] ∧ ∀ c ∈ w, isSpaceChar c = false := by
  intro s
  induction s with
  | nil =>
    intro acc hacc w hw
    rw [splitWsGo] at hw
    by_cases ha : acc = []
    · rw [if_pos ha] at hw
      simp at hw
    · rw [if_neg ha] at hw
      simp only [List.mem_singleton] at hw
      subst hw
      refine ⟨by simpa using ha, ?_⟩
      intro c hc
      exact hacc c (List.mem_reverse.mp hc)
  | cons c rest ih =>
    intro acc hacc w hw
    rw [splitWsGo] at hw
    by_cases hsp : isSpaceChar c
    · rw [if_pos hsp] at hw
      by_cases ha : acc = []
      · rw [if_pos ha] at hw
        exact ih [] (by simp) w hw
      · rw [if_neg ha] at hw
        rcases List.mem_cons.mp hw with rfl | hw2
        · exact ⟨by simpa using ha,
            fun c2 hc2 => hacc c2 (List.mem_reverse.mp hc2)⟩
        · exact ih [] (by simp) w hw2
    · rw [if_neg hsp] at hw
      refine ih (c :: acc) ?_ w hw
      intro c2 hc2
      rcases List.mem_cons.mp hc2 with rfl | hc2r
      · exact Bool.eq_false_iff.mpr hsp
      · exact hacc c2 hc2r

theorem splitWsGo_ne_nil :
    ∀ s acc : List Char,
      (acc ≠ [] ∨ ∃ c ∈ s, isSpaceChar c = false) → splitWsGo s acc ≠ [] := by
  intro s
  induction s with
  | nil =>
    intro acc h
    rcases h with ha | ⟨c, hc, _⟩
    · rw [splitWsGo, if_neg ha]
      simp
    · simp at hc
  | cons c rest ih =>
    intro acc h
    rw [splitWsGo]
    by_cases hsp : isSpaceChar c
    · rw [if_pos hsp]
      by_cases ha : acc = []
      · rw [if_pos ha]
        apply ih
        right
        rcases h with ha2 | ⟨c2, hc2, hc2n⟩
        · exact absurd ha ha2
        · rcases List.mem_cons.mp hc2 with rfl | hc2r
          · rw [hsp] at hc2n
            simp at hc2n
          · exact ⟨c2, hc2r, hc2n⟩
      · rw [if_neg ha]
        simp
    · rw [if_neg hsp]
      apply ih
      left
      simp

theorem trimChars_head_not_space (cs : List Char) (c : Char)
    (h : (trimChars cs).head? = some c) : isSpaceChar c = false := by
  rw [trimChars, List.head?_reverse] at h
  by_cases hTnil :
      (cs.dropWhile isSpaceChar).reverse.dropWhile isSpaceChar = []
  · rw [hTnil] at h
    simp at h
  · have hsplit := List.takeWhile_append_dropWhile isSpaceChar
      (cs.dropWhile isSpaceChar).reverse
    have hgl : (cs.dropWhile isSpaceChar).reverse.getLast? =
        ((cs.dropWhile isSpaceChar).reverse.dropWhile isSpaceChar).getLast? := by
      conv_lhs => rw [← hsplit]
      exact List.getLast?_append_of_ne_nil _ hTnil
    have hglh : (cs.dropWhile isSpaceChar).reverse.getLast? =
        (cs.dropWhile isSpaceChar).head? := List.getLast?_reverse _
    have hhead : (cs.dropWhile isSpaceChar).head? = some c := by
      rw [← hglh, hgl, h]
    exact head_dropWhile_false isSpaceChar cs c hhead

/-- C4: the matcher's term rule.  For every element text and every term:
with the term lowercased and trimmed, a term of length at most 3 matches
the normalized text exactly when it equals — case-insensitively — one
of the whitespace-split tokens of that text, and a term longer than 3
characters matches exactly when it occurs in the normalized text as a
word-bounded phrase whose internal whitespace runs are elastic. -/
theorem C4_term_matching_rule (term text : List Char) :
    (0 < (trimChars (term.map Char.toLower)).length →
      (trimChars (term.map Char.toLower)).length ≤ 3 →
      (matchesSearchTerm term text = true ↔
        ∃ w ∈ splitWs (normalizeText text),
          localeEqAccent w (trimChars (term.map Char.toLower)) = true)) ∧
    (3 < (trimChars (term.map Char.toLower)).length →
      (matchesSearchTerm term text = true ↔
        SpecPhraseMatch (splitWs (trimChars (term.map Char.toLower)))
          (normalizeText text))) := by
  constructor
  · intro _hpos hlen
    simp only [matchesSearchTerm]
    rw [if_pos hlen]
    rw [List.any_eq_true]
  · intro hlen
    simp only [matchesSearchTerm]
    rw [if_neg (by omega)]
    apply scanPhrase_spec
    · apply splitWsGo_ne_nil
      right
      cases ht : trimChars (term.map Char.toLower) with
      | nil =>
        rw [ht] at hlen
        simp at hlen
      | cons c0 t0 =>
        refine ⟨c0, by simp, ?_⟩
        apply trimChars_head_not_space (term.map Char.toLower)
        rw [ht]
        rfl
    · exact splitWsGo_tokens _ [] (by simp)

/-- C4 witness: the theorem applied to the term "ok" and the text
"OK, got it" (short-term whole-word rule), together with the three other
examples of the claim, evaluated on the embedded matcher. -/
theorem C4_term_matching_rule_witness :
    (∃ w ∈ splitWs (normalizeText ("OK, got it".toList)),
      localeEqAccent w (trimChars (("ok".toList).map Char.toLower)) = true) ∧
    matchesSearchTerm ("ok".toList) ("bookmark this".toList) = false ∧
    matchesSearchTerm ("no thanks".toList) ("No thanks!".toList) = true ∧
    matchesSearchTerm ("no thanks".toList) ("no thanksgiving".toList) = false :=
  ⟨((C4_term_matching_rule ("ok".toList) ("OK, got it".toList)).1
      (by decide) (by decide)).mp (by decide),
    by decide, by decide, by decide⟩
